import Mathlib

/-!
Verification of the polynomial, Vandermonde and 2x2-matrix routines of the
`ecfft-group` library.

The coefficient domain is modelled as an additive commutative group `G`
equipped with scalar multiplication by a prime field `F` (Rust trait
`MyGroup`), i.e. as a `Module F G`.  Rust `Vec`s become Lean `List`s,
in-place indexed loops become maps/folds over `List.range`, machine
integers become `Int`/`Nat` with explicit two's-complement wrapping where
overflow matters, and every panicking path (failed `assert!`, out-of-bounds
index, division by zero) is modelled by an `Option` result whose `none`
stands for the abort.
-/

set_option linter.unusedSectionVars false

namespace Ecfft

instance : Fact (Nat.Prime 11) := ⟨by norm_num⟩

instance : Fact (Nat.Prime 17) := ⟨by norm_num⟩

variable {F : Type} [Field F] [DecidableEq F]
variable {G : Type} [AddCommGroup G] [Module F G] [DecidableEq G]

/-- Stores a polynomial in coefficient form with coefficients in a group `G`
(`src/group_polynomial.rs`, `DenseGroupPolynomial`).  The coefficient of
`x^i` is stored at location `i` of `coeffs`. -/
structure DenseGroupPolynomial (G : Type) where
  coeffs : List G

/-- `DenseGroupPolynomial::is_zero`: the coefficient vector is empty or all
coefficients are zero. -/
def DenseGroupPolynomial.is_zero (p : DenseGroupPolynomial G) : Bool :=
  p.coeffs.isEmpty || p.coeffs.all (fun coeff => decide (coeff = 0))

/-- `DenseGroupPolynomial::zero`: the zero polynomial (empty coefficients). -/
def DenseGroupPolynomial.zero : DenseGroupPolynomial G :=
  { coeffs := [] }

/-- Horner's method for polynomial evaluation
(`DenseGroupPolynomial::horner_evaluate`): a right fold starting from the
group zero, `acc <- acc * point + coeff` from the last coefficient down. -/
def horner_evaluate (poly_coeffs : List G) (point : F) : G :=
  poly_coeffs.foldr (fun coeff result => point • result + coeff) 0

/-- Horner's method evaluating the polynomial at `-neg_point`
(`DenseGroupPolynomial::horner_evaluate_neg`): a right fold
`acc <- -(acc * neg_point) + coeff`. -/
def horner_evaluate_neg (poly_coeffs : List G) (neg_point : F) : G :=
  poly_coeffs.foldr (fun coeff result => -(neg_point • result) + coeff) 0

/-- `DenseGroupPolynomial::evaluate` at a field point: zero polynomial gives
`0`, a zero point gives `coeffs[0]`, otherwise Horner. -/
def DenseGroupPolynomial.evaluate (p : DenseGroupPolynomial G) (point : F) : G :=
  if p.is_zero then 0
  else if point = 0 then p.coeffs.getD 0 0
  else horner_evaluate p.coeffs point

/-- Two's-complement wrap of an integer into the `i32` range
`[-2^31, 2^31)`; negation of `i32::MIN` in release-mode Rust wraps this
way (in debug mode it panics, so the value below is never correct output
for an overflowing negation either way). -/
def wrap32 (x : Int) : Int :=
  (x + 2 ^ 31) % 2 ^ 32 - 2 ^ 31

/-- The value of the Rust cast `x as u128` for `x : i32` (two's-complement
reinterpretation into `[0, 2^128)`). -/
def i32_as_u128 (x : Int) : Nat :=
  (x % 2 ^ 128).toNat

/-- `DenseGroupPolynomial::evaluate_small` at a signed 32-bit `point`:
zero polynomial gives `0`, `point = 0` gives `coeffs[0]`, a negative point
uses negated Horner on `F::from((-point) as u128)` (the negation being the
wrapping i32 negation), a positive point uses Horner on
`F::from(point as u128)`. -/
def DenseGroupPolynomial.evaluate_small (p : DenseGroupPolynomial G) (point : Int) : G :=
  if p.is_zero then 0
  else if point = 0 then p.coeffs.getD 0 0
  else if point < 0 then
    horner_evaluate_neg p.coeffs ((i32_as_u128 (wrap32 (-point)) : F))
  else
    horner_evaluate p.coeffs ((i32_as_u128 point : F))

/-- `DenseGroupPolynomial::degree`: `0` for the zero polynomial, otherwise
assert that the last coefficient is non-zero (abort = `none` when the
assertion fails) and return `coeffs.len() - 1`. -/
def DenseGroupPolynomial.degree (p : DenseGroupPolynomial G) : Option Nat :=
  if p.is_zero then some 0
  else if p.coeffs.getLast?.elim false (fun coeff => decide (coeff ≠ 0)) then
    some (p.coeffs.length - 1)
  else none

/-- The list `[min, min+1, ..., min+len-1]` of `len` consecutive integers;
the loop `for i in min..=max { v.push(i) }` of `smallest_range` pushes
exactly these values with `len = max - min + 1`. -/
def consecutive (min : Int) (len : Nat) : List Int :=
  (List.range len).map (fun i => min + Int.ofNat i)

/-- Body of `smallest_range(n)` after the `n >= 0` assertion: `[]` for
`n = 0`, otherwise the integers from `-((n-1)/2)` up to `n/2` inclusive
(`i32` division truncates toward zero, hence `Int.tdiv`). -/
def smallest_range_list (n : Int) : List Int :=
  if n = 0 then []
  else consecutive (-(Int.tdiv (n - 1) 2)) ((Int.tdiv n 2 - -(Int.tdiv (n - 1) 2) + 1).toNat)

/-- `smallest_range(n)` (`src/group_polynomial.rs`): asserts `n >= 0`
(abort = `none`) and returns the integers `-((n-1)/2), ..., n/2`. -/
def smallest_range (n : Int) : Option (List Int) :=
  if n < 0 then none else some (smallest_range_list n)

/-- Reference value for polynomial evaluation, as the spec words it: the
sum over `i` of `c_i * point^i`. -/
def monomial_sum (coeffs : List G) (point : F) : G :=
  ((List.range coeffs.length).map (fun i => point ^ i • coeffs.getD i 0)).sum

lemma monomial_sum_nil (point : F) : monomial_sum ([] : List G) point = 0 := by
  simp [monomial_sum]

lemma monomial_sum_cons (c : G) (cs : List G) (point : F) :
    monomial_sum (c :: cs) point = c + point • monomial_sum cs point := by
  unfold monomial_sum
  rw [List.length_cons, List.range_succ_eq_map, List.map_cons, List.map_map, List.sum_cons]
  congr 1
  · simp
  · rw [List.smul_sum, List.map_map]
    congr 1
    apply List.map_congr_left
    intro i _
    simp [Function.comp, pow_succ', mul_smul]

lemma horner_evaluate_nil (point : F) : horner_evaluate ([] : List G) point = 0 := rfl

lemma horner_evaluate_cons (c : G) (cs : List G) (point : F) :
    horner_evaluate (c :: cs) point = point • horner_evaluate cs point + c := rfl

/-- The Horner right fold computes the reference monomial sum. -/
lemma horner_evaluate_eq_monomial_sum (coeffs : List G) (point : F) :
    horner_evaluate coeffs point = monomial_sum coeffs point := by
  induction coeffs with
  | nil => simp [horner_evaluate_nil, monomial_sum_nil]
  | cons c cs ih =>
      rw [horner_evaluate_cons, monomial_sum_cons, ih, add_comm]

lemma horner_evaluate_zero_point (coeffs : List G) :
    horner_evaluate coeffs (0 : F) = coeffs.getD 0 0 := by
  cases coeffs with
  | nil => rfl
  | cons c cs => rw [horner_evaluate_cons]; simp

lemma is_zero_forall {p : DenseGroupPolynomial G} (h : p.is_zero = true) :
    ∀ c ∈ p.coeffs, c = 0 := by
  intro c hc
  rw [DenseGroupPolynomial.is_zero, Bool.or_eq_true] at h
  rcases h with h1 | h1
  · rw [List.isEmpty_iff] at h1
    rw [h1] at hc
    exact absurd hc (List.not_mem_nil c)
  · have := List.all_eq_true.mp h1 c hc
    exact of_decide_eq_true this

lemma getD_eq_zero_of_forall {coeffs : List G} (h : ∀ c ∈ coeffs, c = 0) (i : Nat) :
    coeffs.getD i 0 = 0 := by
  induction coeffs generalizing i with
  | nil => rfl
  | cons c cs ih =>
      cases i with
      | zero => exact h c (List.mem_cons_self c cs)
      | succ i => exact ih (fun x hx => h x (List.mem_cons_of_mem c hx)) i

lemma monomial_sum_of_is_zero {p : DenseGroupPolynomial G} (h : p.is_zero = true) (point : F) :
    monomial_sum p.coeffs point = 0 := by
  apply List.sum_eq_zero
  intro x hx
  rcases List.mem_map.mp hx with ⟨i, _, rfl⟩
  rw [getD_eq_zero_of_forall (is_zero_forall h) i, smul_zero]

lemma horner_evaluate_of_is_zero {p : DenseGroupPolynomial G} (h : p.is_zero = true) (point : F) :
    horner_evaluate p.coeffs point = 0 := by
  rw [horner_evaluate_eq_monomial_sum, monomial_sum_of_is_zero h]

/-- C8: `evaluate` returns the right-fold Horner value, which equals the
reference sum `Σ_i c_i • point^i`, and the zero polynomial evaluates to
the group zero at every point. -/
theorem evaluate_spec (p : DenseGroupPolynomial G) (point : F) :
    p.evaluate point = horner_evaluate p.coeffs point ∧
    horner_evaluate p.coeffs point = monomial_sum p.coeffs point ∧
    (p.is_zero = true → p.evaluate point = 0) := by
  refine ⟨?_, horner_evaluate_eq_monomial_sum p.coeffs point, ?_⟩
  · unfold DenseGroupPolynomial.evaluate
    by_cases hz : p.is_zero
    · rw [if_pos hz, horner_evaluate_of_is_zero hz]
    · rw [if_neg hz]
      by_cases hp : point = 0
      · rw [if_pos hp, hp, horner_evaluate_zero_point]
      · rw [if_neg hp]
  · intro hz
    unfold DenseGroupPolynomial.evaluate
    rw [if_pos hz]

/-- Witness for `evaluate_spec` at a concrete zero polynomial over `Z/17`. -/
theorem evaluate_spec_witness :
    DenseGroupPolynomial.is_zero (G := ZMod 17) ⟨[0, 0]⟩ = true ∧
      DenseGroupPolynomial.evaluate (F := ZMod 17) (G := ZMod 17) ⟨[0, 0]⟩ 3 = 0 :=
  ⟨by decide, (evaluate_spec (F := ZMod 17) (G := ZMod 17) ⟨[0, 0]⟩ 3).2.2 (by decide)⟩

/-- C9 (amended): `degree` returns `0` for a zero polynomial without ever
reaching the assertion, returns `coeffs.len() - 1` for a non-zero
polynomial whose last coefficient is non-zero, and aborts (assertion
failure) for a non-zero polynomial whose last coefficient is zero. -/
theorem degree_spec (p : DenseGroupPolynomial G) :
    (p.is_zero = true → p.degree = some 0) ∧
    (p.is_zero = false → p.coeffs.getLast? ≠ some 0 →
      p.degree = some (p.coeffs.length - 1)) ∧
    (p.is_zero = false → p.coeffs.getLast? = some 0 → p.degree = none) := by
  refine ⟨fun hz => ?_, fun hz hlast => ?_, fun hz hlast => ?_⟩
  · unfold DenseGroupPolynomial.degree
    rw [if_pos hz]
  · unfold DenseGroupPolynomial.degree
    rcases hl : p.coeffs.getLast? with _ | c
    · exfalso
      have hne : p.coeffs ≠ [] := by
        intro hnil
        rw [DenseGroupPolynomial.is_zero, hnil] at hz
        simp at hz
      exact hne (List.getLast?_eq_none_iff.mp hl)
    · have hc : c ≠ 0 := fun hc0 => hlast (by rw [hl, hc0])
      rw [if_neg (by simp [hz])]
      simp only [Option.elim]
      rw [if_pos (by simp [hc])]
  · unfold DenseGroupPolynomial.degree
    rw [if_neg (by simp [hz]), hlast]
    simp

/-- Witness for `degree_spec` at the concrete polynomial `[5, 3]` over `Z/17`. -/
theorem degree_spec_witness :
    DenseGroupPolynomial.is_zero (G := ZMod 17) ⟨[5, 3]⟩ = false ∧
      DenseGroupPolynomial.degree (G := ZMod 17) ⟨[5, 3]⟩ = some 1 :=
  ⟨by decide, (degree_spec (G := ZMod 17) ⟨[5, 3]⟩).2.1 (by decide) (by decide)⟩

/-- C9 counterexample: the coefficient vector `[0]` is non-empty with zero
last coefficient, yet `degree` returns `0` instead of aborting (the
assertion sits behind the `is_zero` test, so it is never reached for a
zero polynomial). -/
theorem degree_nonempty_trailing_zero_no_abort :
    DenseGroupPolynomial.degree (G := ZMod 17) ⟨[0]⟩ = some 0 ∧
      [(0 : ZMod 17)].getLast? = some 0 := by
  constructor <;> decide

/-- C7: `smallest_range(n)` returns, for every `n ≥ 0`, the `n` consecutive
integers starting at `-⌊(n-1)/2⌋` (hence ending at `⌊n/2⌋`), and aborts
for every negative `n`. -/
theorem smallest_range_spec (n : Int) :
    (0 ≤ n → smallest_range n = some (consecutive (-((n - 1) / 2)) n.toNat)) ∧
    (n < 0 → smallest_range n = none) := by
  constructor
  · intro hn
    unfold smallest_range smallest_range_list
    rw [if_neg (by omega)]
    by_cases h0 : n = 0
    · subst h0
      simp [consecutive]
    · rw [if_neg h0]
      have h1 : 0 < n := by omega
      have e1 : Int.tdiv (n - 1) 2 = (n - 1) / 2 := Int.tdiv_eq_ediv (by omega) (by omega)
      have e2 : Int.tdiv n 2 = n / 2 := Int.tdiv_eq_ediv (by omega) (by omega)
      rw [e1, e2]
      congr 2
      omega
  · intro hn
    unfold smallest_range
    rw [if_pos hn]

lemma horner_evaluate_neg_eq (coeffs : List G) (neg_point : F) :
    horner_evaluate_neg coeffs neg_point = horner_evaluate coeffs (-neg_point) := by
  induction coeffs with
  | nil => rfl
  | cons c cs ih =>
      show -(neg_point • horner_evaluate_neg cs neg_point) + c = _
      rw [ih, horner_evaluate_cons, neg_smul]

set_option maxRecDepth 8000 in
/-- For every `i32` point other than `i32::MIN`, `evaluate_small` agrees
with `evaluate` at the field embedding of the point; the negated-Horner
recurrence used for negative points computes standard Horner at the
(negative) point. -/
theorem evaluate_small_agrees (p : DenseGroupPolynomial G) (point : Int)
    (hlo : -2 ^ 31 < point) (hhi : point < 2 ^ 31) :
    DenseGroupPolynomial.evaluate_small (F := F) p point = p.evaluate ((point : F)) := by
  unfold DenseGroupPolynomial.evaluate_small DenseGroupPolynomial.evaluate
  by_cases hz : p.is_zero
  · rw [if_pos hz, if_pos hz]
  · rw [if_neg hz, if_neg hz]
    by_cases h0 : point = 0
    · rw [if_pos h0, h0]
      norm_num
    · rw [if_neg h0]
      by_cases hneg : point < 0
      · rw [if_pos hneg]
        have hw : wrap32 (-point) = -point := by
          unfold wrap32
          omega
        have hcast : ((i32_as_u128 (wrap32 (-point)) : Nat) : F) = -((point : Int) : F) := by
          rw [hw]
          unfold i32_as_u128
          have h1 : -point % 2 ^ 128 = -point := by omega
          rw [h1]
          have h2 : ((-point).toNat : Int) = -point := Int.toNat_of_nonneg (by omega)
          rw [← Int.cast_natCast (R := F), h2, Int.cast_neg]
        rw [hcast, horner_evaluate_neg_eq, neg_neg]
        by_cases hc0 : ((point : Int) : F) = 0
        · rw [if_pos hc0, hc0, horner_evaluate_zero_point]
        · rw [if_neg hc0]
      · rw [if_neg hneg]
        have hcast : ((i32_as_u128 point : Nat) : F) = ((point : Int) : F) := by
          unfold i32_as_u128
          have h1 : point % 2 ^ 128 = point := by omega
          rw [h1]
          have h2 : (point.toNat : Int) = point := Int.toNat_of_nonneg (by omega)
          rw [← Int.cast_natCast (R := F), h2]
        rw [hcast]
        by_cases hc0 : ((point : Int) : F) = 0
        · rw [if_pos hc0, hc0, horner_evaluate_zero_point]
        · rw [if_neg hc0]

/-- Witness for `evaluate_small_agrees` at the polynomial `[3, 5]` over
`Z/11` and the point `-5`. -/
theorem evaluate_small_agrees_witness :
    DenseGroupPolynomial.evaluate_small (F := ZMod 11) (G := ZMod 11) ⟨[3, 5]⟩ (-5) =
      DenseGroupPolynomial.evaluate (F := ZMod 11) (G := ZMod 11) ⟨[3, 5]⟩ ((-5 : Int) : ZMod 11) :=
  evaluate_small_agrees ⟨[3, 5]⟩ (-5) (by decide) (by decide)

/-- C3: at `point = i32::MIN = -2^31` the computation `(-point) as u128`
overflows (in release mode it wraps to `-2^31` and reinterprets as
`2^128 - 2^31`; in debug mode it panics), so `evaluate_small` disagrees
with `evaluate(F::from(point))` there: over `F = G = Z/11` on the
polynomial `X` it yields `10` instead of `9`. -/
theorem evaluate_small_int_min_diverges :
    DenseGroupPolynomial.evaluate_small (F := ZMod 11) (G := ZMod 11) ⟨[0, 1]⟩ (-2 ^ 31) ≠
      DenseGroupPolynomial.evaluate (F := ZMod 11) (G := ZMod 11) ⟨[0, 1]⟩
        ((-2 ^ 31 : Int) : ZMod 11) := by
  set_option maxRecDepth 10000 in decide

/-- Witness for `smallest_range_spec` at `n = 8` and at `n = -1`. -/
theorem smallest_range_spec_witness :
    smallest_range 8 = some [-3, -2, -1, 0, 1, 2, 3, 4] ∧ smallest_range (-1) = none := by
  constructor
  · have h := (smallest_range_spec 8).1 (by decide)
    rw [h]; decide
  · exact (smallest_range_spec (-1)).2 (by decide)

/-- An "extended" Vandermonde matrix `M_{i,j} = points[i]^j` with
`0 <= j < nb_cols` (`src/vandermonde.rs`). -/
structure VandermondeMatrix (F : Type) where
  points : List F
  nb_cols : Nat

/-- One column update of `left_multiply`:
`for i in 0..nb_rows { col[i] *= points[i]; }`. -/
def lm_update (points : List F) (nb_rows : Nat) (col : List G) : List G :=
  (List.range nb_rows).map (fun i => points.getD i 0 • col.getD i 0)

/-- One result entry of `left_multiply`: `res.push(col[0])` (a panic —
`none` — when `col` is empty) followed by
`for i in 1..nb_rows { res[j] += col[i] }`. -/
def lm_res (nb_rows : Nat) (col : List G) : Option G :=
  if col.length = 0 then none
  else
    some ((List.range (nb_rows - 1)).foldl
      (fun acc i => acc + col.getD (i + 1) 0) (col.getD 0 0))

/-- The `for j in 0..nb_cols` loop of `left_multiply`; `first` records
`j = 0` (no column update on the first iteration). -/
def lm_loop (points : List F) (nb_rows : Nat) : List G → Nat → Bool → Option (List G)
  | _, 0, _ => some []
  | col, m + 1, first =>
      let col2 := if first then col else lm_update points nb_rows col
      (lm_res nb_rows col2).bind
        (fun r => (lm_loop points nb_rows col2 m false).map (fun rest => r :: rest))

/-- `VandermondeMatrix::left_multiply` (`src/vandermonde.rs`): asserts
`points.len() == vector.len()` (abort = `none`) and runs the column loop. -/
def VandermondeMatrix.left_multiply (M : VandermondeMatrix F) (vector : List G) :
    Option (List G) :=
  if M.points.length ≠ vector.length then none
  else lm_loop M.points M.points.length vector M.nb_cols true

/-- One column update of `small_vandermonde_left_multiply`:
`for i in 0..nb_rows { if i != zero_i { abs_col[i] *= abs_points[i]; } }`. -/
def sv_step (nb_rows zero_i : Nat) (abs_points : List F) (abs_col : List G) : List G :=
  (List.range nb_rows).map (fun i =>
    if i = zero_i then abs_col.getD i 0 else abs_points.getD i 0 • abs_col.getD i 0)

/-- One result entry of `small_vandermonde_left_multiply` at column `j`:
`res.push(abs_col[nb_rows-1])` followed by the signed accumulation over
`i in 0..nb_rows-1` (subtract for negative points at odd `j`; the zero
point contributes only at `j = 0`). -/
def sv_res (nb_rows zero_i j : Nat) (abs_col : List G) : G :=
  (List.range (nb_rows - 1)).foldl
    (fun acc i =>
      if i < zero_i ∧ j % 2 = 1 then acc - abs_col.getD i 0
      else if i = zero_i then (if j = 0 then acc + abs_col.getD i 0 else acc)
      else acc + abs_col.getD i 0)
    (abs_col.getD (nb_rows - 1) 0)

/-- The `for j in 0..nb_cols` loop of `small_vandermonde_left_multiply`
for the iterations with `j >= 1` (which all update the column first and
short-circuit to zero when `nb_rows == 1`). -/
def sv_loop (nb_rows zero_i : Nat) (abs_points : List F) : List G → Nat → Nat → List G
  | _, _, 0 => []
  | abs_col, j, m + 1 =>
      let col2 := sv_step nb_rows zero_i abs_points abs_col
      (if nb_rows = 1 then 0 else sv_res nb_rows zero_i j col2) ::
        sv_loop nb_rows zero_i abs_points col2 (j + 1) m

/-- `small_vandermonde_left_multiply` (`src/vandermonde.rs`): asserts
`nb_rows > 0` (abort = `none`), takes `zero_i = (nb_rows - 1) / 2` and
`abs_points[i] = F::from(|smallest_range(nb_rows)[i]|)`, and runs the
column loop (iteration `j = 0` emits straight from `vector`). -/
def small_vandermonde_left_multiply (vector : List G) (nb_cols : Nat) : Option (List G) :=
  if vector.length = 0 then none
  else
    let nb_rows := vector.length
    let zero_i := (nb_rows - 1) / 2
    let abs_points : List F :=
      (smallest_range_list (nb_rows : Int)).map (fun p => ((p.natAbs : Nat) : F))
    some
      (match nb_cols with
        | 0 => []
        | m + 1 => sv_res nb_rows zero_i 0 vector :: sv_loop nb_rows zero_i abs_points vector 1 m)

/-- The row sum `Σ_{i<n} f i`, the shape of every specification formula of
the Vandermonde routines. -/
def rowSum (n : Nat) (f : Nat → G) : G :=
  ((List.range n).map f).sum

lemma rowSum_zero (f : Nat → G) : rowSum 0 f = 0 := by
  simp [rowSum]

lemma rowSum_succ (n : Nat) (f : Nat → G) : rowSum (n + 1) f = rowSum n f + f n := by
  simp [rowSum, List.range_succ]

lemma rowSum_succ_shift (n : Nat) (f : Nat → G) :
    rowSum (n + 1) f = f 0 + rowSum n (fun i => f (i + 1)) := by
  simp only [rowSum, List.range_succ_eq_map, List.map_cons, List.map_map, List.sum_cons]
  rfl

lemma rowSum_congr {n : Nat} {f g : Nat → G} (h : ∀ i < n, f i = g i) :
    rowSum n f = rowSum n g := by
  unfold rowSum
  congr 1
  apply List.map_congr_left
  intro i hi
  exact h i (List.mem_range.mp hi)

lemma getD_map_range {α : Type} (f : Nat → α) {n i : Nat} (h : i < n) (d : α) :
    ((List.range n).map f).getD i d = f i := by
  rw [List.getD_eq_getElem?_getD, List.getElem?_map, List.getElem?_range h]
  rfl

lemma getD_map_lt {α β : Type} (f : α → β) {l : List α} {i : Nat} (h : i < l.length)
    (d : β) (e : α) : (l.map f).getD i d = f (l.getD i e) := by
  rw [List.getD_eq_getElem?_getD, List.getElem?_map, List.getD_eq_getElem?_getD,
    List.getElem?_eq_getElem h]
  rfl

lemma map_getD_range_eq_self (l : List G) :
    (List.range l.length).map (fun i => l.getD i 0) = l := by
  induction l with
  | nil => rfl
  | cons c cs ih =>
      rw [List.length_cons, List.range_succ_eq_map, List.map_cons, List.map_map]
      exact congrArg (fun t => c :: t) ih

lemma foldl_add_eq (g : Nat → G) (l : List Nat) (b : G) :
    l.foldl (fun acc i => acc + g i) b = b + (l.map g).sum := by
  induction l generalizing b with
  | nil => simp
  | cons a l ih =>
      rw [List.foldl_cons, List.map_cons, List.sum_cons, ih, add_assoc]

lemma lm_update_length (points : List F) (nb_rows : Nat) (col : List G) :
    (lm_update points nb_rows col).length = nb_rows := by
  simp [lm_update]

lemma lm_update_getD (points : List F) (nb_rows : Nat) (col : List G) {i : Nat}
    (h : i < nb_rows) :
    (lm_update points nb_rows col).getD i 0 = points.getD i 0 • col.getD i 0 :=
  getD_map_range _ h 0

lemma lm_res_spec (nb_rows : Nat) (col : List G) (hlen : col.length = nb_rows)
    (hne : 0 < nb_rows) :
    lm_res nb_rows col = some (rowSum nb_rows (fun i => col.getD i 0)) := by
  unfold lm_res
  rw [if_neg (by omega)]
  congr 1
  rw [foldl_add_eq (fun i => col.getD (i + 1) 0)]
  obtain ⟨m, rfl⟩ : ∃ m, nb_rows = m + 1 := ⟨nb_rows - 1, by omega⟩
  rw [rowSum_succ_shift]
  rfl

lemma lm_loop_succ_false (points : List F) (nb_rows : Nat) (col : List G) (m : Nat) :
    lm_loop points nb_rows col (m + 1) false =
      (lm_res nb_rows (lm_update points nb_rows col)).bind
        (fun r => (lm_loop points nb_rows (lm_update points nb_rows col) m false).map
          (fun rest => r :: rest)) := rfl

lemma lm_loop_succ_true (points : List F) (nb_rows : Nat) (col : List G) (m : Nat) :
    lm_loop points nb_rows col (m + 1) true =
      (lm_res nb_rows col).bind
        (fun r => (lm_loop points nb_rows col m false).map (fun rest => r :: rest)) := rfl

lemma lm_loop_false_spec (points : List F) (nb_rows : Nat) (hne : 0 < nb_rows) :
    ∀ (m : Nat) (col : List G), col.length = nb_rows →
      lm_loop points nb_rows col m false =
        some ((List.range m).map
          (fun j => rowSum nb_rows (fun i => points.getD i 0 ^ (j + 1) • col.getD i 0))) := by
  intro m
  induction m with
  | zero => intro col _; rfl
  | succ m ih =>
      intro col hlen
      rw [lm_loop_succ_false, lm_res_spec nb_rows _ (lm_update_length points nb_rows col) hne,
        ih (lm_update points nb_rows col) (lm_update_length points nb_rows col)]
      simp only [Option.some_bind, Option.map_some']
      rw [List.range_succ_eq_map, List.map_cons, List.map_map]
      congr 2
      · exact rowSum_congr (fun i hi => by
          rw [lm_update_getD points nb_rows col hi, pow_one])
      · apply List.map_congr_left
        intro j _
        apply rowSum_congr
        intro i hi
        rw [lm_update_getD points nb_rows col hi, smul_smul, ← pow_succ]

lemma lm_loop_true_spec (points : List F) (nb_rows : Nat) (hne : 0 < nb_rows)
    (m : Nat) (col : List G) (hlen : col.length = nb_rows) :
    lm_loop points nb_rows col m true =
      some ((List.range m).map
        (fun j => rowSum nb_rows (fun i => points.getD i 0 ^ j • col.getD i 0))) := by
  cases m with
  | zero => rfl
  | succ m =>
      rw [lm_loop_succ_true, lm_res_spec nb_rows col hlen hne,
        lm_loop_false_spec points nb_rows hne m col hlen]
      simp only [Option.some_bind, Option.map_some']
      rw [List.range_succ_eq_map, List.map_cons, List.map_map]
      congr 2
      exact rowSum_congr (fun i hi => by rw [pow_zero, one_smul])

lemma lm_loop_zero_cols (points : List F) (nb_rows : Nat) (col : List G) (first : Bool) :
    lm_loop points nb_rows col 0 first = some [] := rfl

lemma lm_loop_empty_col (points : List F) (nb_rows m : Nat) :
    lm_loop points nb_rows ([] : List G) (m + 1) true = none := by
  rw [lm_loop_succ_true]
  rfl

/-- C5 (amended): `left_multiply` returns the vector
`u[j] = Σ_i v[i] • points[i]^j` for `j < nb_cols` whenever the lengths of
`v` and `points` agree and either `v` is non-empty or `nb_cols = 0`
(with `v` and `points` both empty and `nb_cols ≥ 1` it panics reading
`col[0]` instead), and it aborts whenever the lengths differ. -/
theorem left_multiply_spec (points : List F) (nb_cols : Nat) (v : List G) :
    (points.length = v.length → 0 < v.length ∨ nb_cols = 0 →
      VandermondeMatrix.left_multiply ⟨points, nb_cols⟩ v =
        some ((List.range nb_cols).map
          (fun j => rowSum v.length (fun i => points.getD i 0 ^ j • v.getD i 0)))) ∧
    (points.length ≠ v.length →
      VandermondeMatrix.left_multiply ⟨points, nb_cols⟩ v = none) := by
  constructor
  · intro hlen hpos
    unfold VandermondeMatrix.left_multiply
    rw [if_neg (by simp [hlen])]
    rcases hpos with hpos | rfl
    · rw [lm_loop_true_spec points points.length (by omega) nb_cols v hlen.symm, hlen]
    · rw [lm_loop_zero_cols]
      rfl
  · intro hlen
    unfold VandermondeMatrix.left_multiply
    rw [if_pos hlen]

/-- Witness for `left_multiply_spec` at the concrete scenario
`points = [1,2]`, `v = [3,4]`, `nb_cols = 4` over `Z/17`. -/
theorem left_multiply_spec_witness :
    VandermondeMatrix.left_multiply (F := ZMod 17) (G := ZMod 17) ⟨[1, 2], 4⟩ [3, 4] =
      some ((List.range 4).map
        (fun j => rowSum ([3, 4] : List (ZMod 17)).length
          (fun i => ([1, 2] : List (ZMod 17)).getD i 0 ^ j •
            ([3, 4] : List (ZMod 17)).getD i 0))) :=
  (left_multiply_spec [1, 2] 4 [3, 4]).1 (by decide) (Or.inl (by decide))

/-- C5 counterexample: with `points = v = []` and `nb_cols = 1` the claimed
result would be the empty sum `[0]`, but the code panics reading `col[0]`
of an empty buffer. -/
theorem left_multiply_empty_counterexample :
    VandermondeMatrix.left_multiply (F := ZMod 17) (G := ZMod 17) ⟨[], 1⟩ [] ≠
      some [0] := by
  decide

/-- C10: `left_multiply` on the empty matrix and vector panics for every
`nb_cols ≥ 1` (it reads index 0 of an empty buffer), returns the empty
vector only for `nb_cols = 0`, and in general succeeds exactly when the
lengths agree and either the vector is non-empty or `nb_cols = 0`. -/
theorem left_multiply_empty_behavior (points : List F) (nb_cols : Nat) (v : List G) :
    (1 ≤ nb_cols →
      VandermondeMatrix.left_multiply (F := F) (G := G) ⟨[], nb_cols⟩ [] = none) ∧
    VandermondeMatrix.left_multiply (F := F) (G := G) ⟨[], 0⟩ [] = some [] ∧
    ((VandermondeMatrix.left_multiply ⟨points, nb_cols⟩ v).isSome = true ↔
      (points.length = v.length ∧ (0 < v.length ∨ nb_cols = 0))) := by
  refine ⟨fun h1 => ?_, ?_, ?_, ?_⟩
  · obtain ⟨m, rfl⟩ : ∃ m, nb_cols = m + 1 := ⟨nb_cols - 1, by omega⟩
    unfold VandermondeMatrix.left_multiply
    rw [if_neg (by simp), lm_loop_empty_col]
  · unfold VandermondeMatrix.left_multiply
    rw [if_neg (by simp), lm_loop_zero_cols]
  · intro hs
    have hlen : points.length = v.length := by
      by_contra hne
      unfold VandermondeMatrix.left_multiply at hs
      rw [if_pos hne] at hs
      simp at hs
    refine ⟨hlen, ?_⟩
    by_cases hv : 0 < v.length
    · exact Or.inl hv
    · right
      by_contra hc0
      obtain ⟨m, rfl⟩ : ∃ m, nb_cols = m + 1 := ⟨nb_cols - 1, by omega⟩
      have hvnil : v = [] := List.eq_nil_of_length_eq_zero (by omega)
      subst hvnil
      unfold VandermondeMatrix.left_multiply at hs
      rw [if_neg (by simp [hlen]), lm_loop_empty_col] at hs
      simp at hs
  · rintro ⟨hlen, hpos | rfl⟩
    · unfold VandermondeMatrix.left_multiply
      rw [if_neg (by simp [hlen]),
        lm_loop_true_spec points points.length (by omega) nb_cols v hlen.symm]
      rfl
    · unfold VandermondeMatrix.left_multiply
      rw [if_neg (by simp [hlen]), lm_loop_zero_cols]
      rfl

/-- Witness for `left_multiply_empty_behavior`: the empty matrix with one
column panics over `Z/17`. -/
theorem left_multiply_empty_behavior_witness :
    VandermondeMatrix.left_multiply (F := ZMod 17) (G := ZMod 17) ⟨[], 1⟩ [] = none :=
  (left_multiply_empty_behavior (F := ZMod 17) (G := ZMod 17) [] 1 []).1 (by decide)

/-- The signed point `i - zero_i` of the small symmetric domain, embedded
in `F` (specification device for the `small_vandermonde_left_multiply`
proof). -/
def signedPointF (z i : Nat) : F :=
  (((i : Int) - (z : Int) : Int) : F)

/-- The absolute value `|i - zero_i|` of the signed point, embedded in `F`
(this is `abs_points[i]` of the source). -/
def absPointF (z i : Nat) : F :=
  ((((i : Int) - (z : Int)).natAbs : Nat) : F)

/-- The column state of `small_vandermonde_left_multiply` at step `j`:
entry `i` holds `vector[i] * abs_points[i]^j`, except the zero index which
is never multiplied. -/
def svCol (n z : Nat) (v : List G) (j : Nat) : List G :=
  (List.range n).map
    (fun i => if i = z then v.getD i 0 else absPointF (F := F) z i ^ j • v.getD i 0)

/-- The specified output entry of the small-Vandermonde product at column
`e`: the row sum of `v[i]` scaled by the `e`-th power of the signed point. -/
def svOut (z n : Nat) (v : List G) (e : Nat) : G :=
  rowSum n (fun i => signedPointF (F := F) z i ^ e • v.getD i 0)

lemma signedPointF_self (z : Nat) : signedPointF (F := F) z z = 0 := by
  unfold signedPointF
  simp

lemma signedPointF_of_le {z i : Nat} (h : z ≤ i) :
    signedPointF (F := F) z i = absPointF (F := F) z i := by
  unfold signedPointF absPointF
  have he : ((i : Int) - (z : Int)) = ((i - z : Nat) : Int) := by omega
  rw [he]
  simp

lemma signedPointF_of_lt {z i : Nat} (h : i < z) :
    signedPointF (F := F) z i = -(absPointF (F := F) z i) := by
  unfold signedPointF absPointF
  have he : ((i : Int) - (z : Int)) = -((z - i : Nat) : Int) := by omega
  rw [he]
  simp

lemma smallest_range_list_length (n : Nat) : (smallest_range_list (n : Int)).length = n := by
  unfold smallest_range_list
  by_cases h0 : (n : Int) = 0
  · rw [if_pos h0]
    simpa using by omega
  · rw [if_neg h0]
    unfold consecutive
    rw [List.length_map, List.length_range]
    have e1 : Int.tdiv ((n : Int) - 1) 2 = ((n : Int) - 1) / 2 :=
      Int.tdiv_eq_ediv (by omega) (by omega)
    have e2 : Int.tdiv (n : Int) 2 = (n : Int) / 2 := Int.tdiv_eq_ediv (by omega) (by omega)
    rw [e1, e2]
    omega

lemma smallest_range_list_getD (n i : Nat) (hn : 0 < n) (hi : i < n) :
    (smallest_range_list (n : Int)).getD i 0 = (i : Int) - (((n - 1) / 2 : Nat) : Int) := by
  unfold smallest_range_list
  rw [if_neg (by omega)]
  unfold consecutive
  have e1 : Int.tdiv ((n : Int) - 1) 2 = ((n : Int) - 1) / 2 :=
    Int.tdiv_eq_ediv (by omega) (by omega)
  have e2 : Int.tdiv (n : Int) 2 = (n : Int) / 2 := Int.tdiv_eq_ediv (by omega) (by omega)
  rw [e1, e2, getD_map_range _ (by omega) 0]
  simp only [Int.ofNat_eq_natCast]
  omega

lemma svCol_length (n z : Nat) (v : List G) (j : Nat) :
    (svCol (F := F) n z v j).length = n := by
  simp [svCol]

lemma svCol_getD (n z : Nat) (v : List G) (j : Nat) {i : Nat} (hi : i < n) :
    (svCol (F := F) n z v j).getD i 0 =
      if i = z then v.getD i 0 else absPointF (F := F) z i ^ j • v.getD i 0 :=
  getD_map_range _ hi 0

lemma svCol_zero (z : Nat) (v : List G) : svCol (F := F) v.length z v 0 = v := by
  unfold svCol
  conv_rhs => rw [← map_getD_range_eq_self v]
  apply List.map_congr_left
  intro i _
  split_ifs with h
  · rfl
  · rw [pow_zero, one_smul]

lemma sv_step_svCol (n z : Nat) (v : List G) (absPts : List F)
    (habs : ∀ i < n, absPts.getD i 0 = absPointF (F := F) z i) (j : Nat) :
    sv_step n z absPts (svCol (F := F) n z v j) = svCol (F := F) n z v (j + 1) := by
  unfold sv_step
  unfold svCol
  apply List.map_congr_left
  intro i hi
  have hi' := List.mem_range.mp hi
  rw [getD_map_range _ hi' 0]
  split_ifs with h
  · rfl
  · rw [habs i hi', smul_smul, ← pow_succ']

lemma foldl_branch_eq (z j : Nat) (col : List G) (l : List Nat) (b : G) :
    (l.foldl (fun acc i =>
      if i < z ∧ j % 2 = 1 then acc - col.getD i 0
      else if i = z then (if j = 0 then acc + col.getD i 0 else acc)
      else acc + col.getD i 0) b) =
    b + (l.map (fun i =>
      if i < z ∧ j % 2 = 1 then -(col.getD i 0)
      else if i = z then (if j = 0 then col.getD i 0 else 0)
      else col.getD i 0)).sum := by
  induction l generalizing b with
  | nil => simp
  | cons a l ih =>
      rw [List.foldl_cons, List.map_cons, List.sum_cons, ih, ← add_assoc]
      congr 2
      split_ifs <;> simp [sub_eq_add_neg]

lemma sv_res_spec (v : List G) (n z j : Nat) (hz : z = (n - 1) / 2)
    (h1 : n = 1 → j = 0) :
    sv_res n z j (svCol (F := F) n z v j) = svOut (F := F) z n v j := by
  rcases n with _ | m
  · unfold sv_res svOut
    rw [foldl_branch_eq, rowSum_zero]
    simp [svCol]
  · have hz' : z = m / 2 := by omega
    unfold sv_res svOut
    rw [foldl_branch_eq, Nat.add_sub_cancel, rowSum_succ,
      add_comm ((svCol (F := F) (m + 1) z v j).getD m 0)]
    congr 1
    · unfold rowSum
      congr 1
      apply List.map_congr_left
      intro i hi
      have hi' : i < m := List.mem_range.mp hi
      rw [svCol_getD _ _ _ _ (by omega)]
      by_cases hiz : i = z
      · subst hiz
        rw [if_neg (by omega), if_pos rfl, if_pos rfl, signedPointF_self]
        by_cases hj : j = 0
        · subst hj
          rw [if_pos rfl, pow_zero, one_smul]
        · rw [if_neg hj, zero_pow hj, zero_smul]
      · by_cases hlt : i < z
        · rw [if_neg hiz, signedPointF_of_lt hlt]
          by_cases hodd : j % 2 = 1
          · rw [if_pos ⟨hlt, hodd⟩, Odd.neg_pow (Nat.odd_iff.mpr hodd), neg_smul]
          · rw [if_neg (by tauto), if_neg hiz,
              Even.neg_pow (Nat.even_iff.mpr (by omega))]
        · rw [if_neg (by tauto), if_neg hiz, if_neg hiz, signedPointF_of_le (by omega)]
    · rw [svCol_getD _ _ _ _ (by omega)]
      by_cases hm0 : m = 0
      · subst hm0
        have hz0 : z = 0 := by omega
        have hj0 : j = 0 := h1 rfl
        subst hz0
        subst hj0
        rw [if_pos rfl, signedPointF_self, pow_zero, one_smul]
      · have hzm : z < m := by omega
        rw [if_neg (by omega), signedPointF_of_le (by omega)]

lemma sv_loop_succ (n z : Nat) (absPts : List F) (col : List G) (j m : Nat) :
    sv_loop n z absPts col j (m + 1) =
      (if n = 1 then 0 else sv_res n z j (sv_step n z absPts col)) ::
        sv_loop n z absPts (sv_step n z absPts col) (j + 1) m := rfl

lemma svOut_one (z : Nat) (v : List G) (e : Nat) (hz : z = 0) (he : e ≠ 0) :
    svOut (F := F) z 1 v e = 0 := by
  subst hz
  unfold svOut
  rw [rowSum_succ, rowSum_zero, signedPointF_self, zero_pow he, zero_smul, add_zero]

lemma sv_loop_spec (v : List G) (n z : Nat) (absPts : List F) (hn : 0 < n)
    (hz : z = (n - 1) / 2) (habs : ∀ i < n, absPts.getD i 0 = absPointF (F := F) z i) :
    ∀ (m jp : Nat),
      sv_loop n z absPts (svCol (F := F) n z v jp) (jp + 1) m =
        (List.range m).map (fun t => svOut (F := F) z n v (jp + 1 + t)) := by
  intro m
  induction m with
  | zero => intro jp; rfl
  | succ m ih =>
      intro jp
      rw [sv_loop_succ, sv_step_svCol n z v absPts habs jp, ih (jp + 1),
        List.range_succ_eq_map, List.map_cons, List.map_map]
      congr 1
      · by_cases hone : n = 1
        · rw [if_pos hone]
          subst hone
          rw [svOut_one z v (jp + 1 + 0) (by omega) (by omega)]
        · rw [if_neg hone, sv_res_spec v n z (jp + 1) hz (fun hh => absurd hh hone)]
      · apply List.map_congr_left
        intro t _
        exact congrArg (svOut (F := F) z n v) (by omega)

lemma sv_abs_points_getD (v : List G) (hv : 0 < v.length) :
    ∀ i < v.length,
      ((smallest_range_list (v.length : Int)).map
        (fun p => ((p.natAbs : Nat) : F))).getD i 0 =
      absPointF (F := F) ((v.length - 1) / 2) i := by
  intro i hi
  rw [getD_map_lt _ (by rw [smallest_range_list_length]; exact hi) 0 0,
    smallest_range_list_getD v.length i hv hi]
  rfl

lemma small_vandermonde_formula (v : List G) (nb_cols : Nat) (hv : 0 < v.length) :
    small_vandermonde_left_multiply (F := F) v nb_cols =
      some ((List.range nb_cols).map
        (fun j => svOut (F := F) ((v.length - 1) / 2) v.length v j)) := by
  unfold small_vandermonde_left_multiply
  rw [if_neg (by omega)]
  cases nb_cols with
  | zero => rfl
  | succ m =>
      show some
        (sv_res v.length ((v.length - 1) / 2) 0 v ::
          sv_loop v.length ((v.length - 1) / 2)
            ((smallest_range_list (v.length : Int)).map (fun p => ((p.natAbs : Nat) : F)))
            v 1 m) = _
      have hstart :
          some
            (sv_res v.length ((v.length - 1) / 2) 0 v ::
              sv_loop v.length ((v.length - 1) / 2)
                ((smallest_range_list (v.length : Int)).map
                  (fun p => ((p.natAbs : Nat) : F))) v 1 m) =
          some
            (sv_res v.length ((v.length - 1) / 2) 0
                (svCol (F := F) v.length ((v.length - 1) / 2) v 0) ::
              sv_loop v.length ((v.length - 1) / 2)
                ((smallest_range_list (v.length : Int)).map
                  (fun p => ((p.natAbs : Nat) : F)))
                (svCol (F := F) v.length ((v.length - 1) / 2) v 0) 1 m) := by
        rw [svCol_zero]
      rw [hstart, sv_res_spec v v.length ((v.length - 1) / 2) 0 rfl (fun _ => rfl)]
      have hloop := sv_loop_spec v v.length ((v.length - 1) / 2)
        ((smallest_range_list (v.length : Int)).map (fun p => ((p.natAbs : Nat) : F)))
        hv rfl (sv_abs_points_getD v hv) m 0
      simp only [Nat.zero_add] at hloop
      rw [hloop, List.range_succ_eq_map, List.map_cons, List.map_map]
      congr 2
      apply List.map_congr_left
      intro t _
      exact congrArg (svOut (F := F) ((v.length - 1) / 2) v.length v) (by omega)

lemma left_multiply_sr_formula (v : List G) (nb_cols : Nat) (hv : 0 < v.length) :
    VandermondeMatrix.left_multiply
        ⟨(smallest_range_list (v.length : Int)).map (fun p => (Int.cast p : F)), nb_cols⟩ v =
      some ((List.range nb_cols).map
        (fun j => svOut (F := F) ((v.length - 1) / 2) v.length v j)) := by
  have hlen :
      ((smallest_range_list (v.length : Int)).map (fun p => (Int.cast p : F))).length = v.length := by
    rw [List.length_map, smallest_range_list_length]
  unfold VandermondeMatrix.left_multiply
  rw [if_neg (by simp [hlen]),
    lm_loop_true_spec _ _ (by omega) nb_cols v hlen.symm]
  congr 1
  apply List.map_congr_left
  intro j _
  rw [hlen]
  apply rowSum_congr
  intro i hi
  rw [getD_map_lt _ (by rw [smallest_range_list_length]; exact hi) 0 0,
    smallest_range_list_getD v.length i hv hi]
  rfl

/-- C4: for every non-empty `v` and every column count,
`small_vandermonde_left_multiply(v, m)` equals the generic
`left_multiply` on the Vandermonde matrix whose points are the field
embeddings of `smallest_range(|v|)`; in particular for `|v| = 1` the
result is `v[0]` followed by zeros. -/
theorem small_vandermonde_left_multiply_spec (v : List G) (nb_cols : Nat)
    (hv : 0 < v.length) :
    small_vandermonde_left_multiply (F := F) v nb_cols =
      VandermondeMatrix.left_multiply
        ⟨(smallest_range_list (v.length : Int)).map (fun p => (Int.cast p : F)), nb_cols⟩ v ∧
    (∀ g : G, small_vandermonde_left_multiply (F := F) [g] nb_cols =
      some ((List.range nb_cols).map (fun j => if j = 0 then g else 0))) := by
  constructor
  · rw [small_vandermonde_formula v nb_cols hv, left_multiply_sr_formula v nb_cols hv]
  · intro g
    rw [small_vandermonde_formula [g] nb_cols (by simp)]
    congr 1
    apply List.map_congr_left
    intro j _
    have hz0 : (([g] : List G).length - 1) / 2 = 0 := by norm_num
    have hl1 : ([g] : List G).length = 1 := by norm_num
    by_cases hj : j = 0
    · subst hj
      rw [if_pos rfl, hz0, hl1]
      unfold svOut
      rw [rowSum_succ, rowSum_zero, pow_zero, one_smul, zero_add]
      rfl
    · rw [if_neg hj, hz0, hl1]
      exact svOut_one 0 [g] j rfl hj

/-- Witness for `small_vandermonde_left_multiply_spec` at the concrete
scenario `v = [10, 16]`, `nb_cols = 5` over `Z/17`. -/
theorem small_vandermonde_left_multiply_spec_witness :
    small_vandermonde_left_multiply (F := ZMod 17) (G := ZMod 17) [10, 16] 5 =
      VandermondeMatrix.left_multiply (F := ZMod 17) (G := ZMod 17)
        ⟨(smallest_range_list (([10, 16] : List (ZMod 17)).length : Int)).map
          (fun p => (Int.cast p : ZMod 17)), 5⟩ [10, 16] :=
  (small_vandermonde_left_multiply_spec [10, 16] 5 (by decide)).1

/-- 2x2 matrix over `F` (`src/utils/matrix.rs`), row-major:
`Matrix([[a, b], [c, d]])`. -/
structure Matrix (F : Type) where
  a : F
  b : F
  c : F
  d : F

/-- `Matrix::inverse`: `(1/det) * [[d, -b], [-c, a]]`; the divisions by a
zero determinant panic in `ark_ff` (abort = `none`). -/
def Matrix.inverse (M : Matrix F) : Option (Matrix F) :=
  let det := M.a * M.d - M.b * M.c
  if det = 0 then none
  else some ⟨M.d / det, -M.b / det, -M.c / det, M.a / det⟩

/-- `Matrix::multiply`: multiply a vector of 2 group elements by the
matrix, `[x*a + y*b, x*c + y*d]`. -/
def Matrix.multiply (M : Matrix F) (v : G × G) : G × G :=
  (M.a • v.1 + M.b • v.2, M.c • v.1 + M.d • v.2)

/-- C6: for a 2x2 matrix with non-zero determinant, `inverse` returns
`(1/det)*[[d,-b],[-c,a]]` and multiplying by the matrix and by its inverse
in either order is the identity on `G x G`; `inverse` aborts when the
determinant is zero. -/
theorem matrix_inverse_spec (a b c d : F) (x y : G) :
    (a * d - b * c ≠ 0 →
      (Matrix.mk a b c d).inverse =
        some ⟨d / (a * d - b * c), -b / (a * d - b * c),
          -c / (a * d - b * c), a / (a * d - b * c)⟩ ∧
      Matrix.multiply (Matrix.mk a b c d)
        (Matrix.multiply
          (Matrix.mk (d / (a * d - b * c)) (-b / (a * d - b * c))
            (-c / (a * d - b * c)) (a / (a * d - b * c))) (x, y)) = (x, y) ∧
      Matrix.multiply
        (Matrix.mk (d / (a * d - b * c)) (-b / (a * d - b * c))
          (-c / (a * d - b * c)) (a / (a * d - b * c)))
        (Matrix.multiply (Matrix.mk a b c d) (x, y)) = (x, y)) ∧
    (a * d - b * c = 0 → (Matrix.mk a b c d).inverse = none) := by
  constructor
  · intro hdet
    refine ⟨?_, ?_, ?_⟩
    · unfold Matrix.inverse
      rw [if_neg hdet]
    · unfold Matrix.multiply
      apply Prod.ext
      · show a • ((d / (a * d - b * c)) • x + (-b / (a * d - b * c)) • y) +
          b • ((-c / (a * d - b * c)) • x + (a / (a * d - b * c)) • y) = x
        match_scalars
        · field_simp
          ring
        · ring
      · show c • ((d / (a * d - b * c)) • x + (-b / (a * d - b * c)) • y) +
          d • ((-c / (a * d - b * c)) • x + (a / (a * d - b * c)) • y) = y
        match_scalars
        · ring
        · field_simp
          ring
    · unfold Matrix.multiply
      apply Prod.ext
      · show (d / (a * d - b * c)) • (a • x + b • y) +
          (-b / (a * d - b * c)) • (c • x + d • y) = x
        match_scalars
        · field_simp
          ring
        · ring
      · show (-c / (a * d - b * c)) • (a • x + b • y) +
          (a / (a * d - b * c)) • (c • x + d • y) = y
        match_scalars
        · ring
        · field_simp
          ring
  · intro hdet
    unfold Matrix.inverse
    rw [if_pos hdet]

set_option maxHeartbeats 1000000 in
/-- Witness for `matrix_inverse_spec` at the concrete matrix
`[[1,2],[3,4]]` (determinant `-2`) and vector `(5, 7)` over `Z/17`. -/
theorem matrix_inverse_spec_witness :
    Matrix.multiply (F := ZMod 17) (G := ZMod 17) (Matrix.mk 1 2 3 4)
      (Matrix.multiply (F := ZMod 17) (G := ZMod 17)
        (Matrix.mk ((4 : ZMod 17) / (1 * 4 - 2 * 3)) ((-2 : ZMod 17) / (1 * 4 - 2 * 3))
          ((-3 : ZMod 17) / (1 * 4 - 2 * 3)) ((1 : ZMod 17) / (1 * 4 - 2 * 3)))
        ((5 : ZMod 17), (7 : ZMod 17))) =
      ((5 : ZMod 17), (7 : ZMod 17)) :=
  ((matrix_inverse_spec (F := ZMod 17) (G := ZMod 17) 1 2 3 4 5 7).1 (by decide)).2.1

end Ecfft
